import Mathlib

/-!
Verification development for a small interactive coding agent written in Go.

The program consists of an orchestration loop (`Agent.Run`) that alternates
between reading human input, calling a remote model, and dispatching the
model's tool invocations (`executeTool`) against three filesystem tools:
`read_file`, `list_files` and `edit_file`.

This file gives a shallow embedding of the program:
* the operating system is modelled by a `World` (a flat map from paths to
  file contents used by `os.ReadFile`/`os.WriteFile`, a list of directories
  created by `os.MkdirAll`, and a directory tree walked by `filepath.Walk`);
* Go's `strings.Replace(s, old, new, -1)` is embedded as `strReplaceAll`,
  a fuel-indexed (hence kernel-reducible) leftmost non-overlapping
  replacement on `List Char`;
* the remote model is an oracle `List Turn → Except GoError (List ContentBlock)`
  and the loop `run` is indexed by fuel, mirroring the unbounded `for` loop;
* `panic` in the source (raised by `ReadFile`/`ListFiles` on a JSON decode
  failure) is embedded as the `Outcome.panic` constructor, which `run`
  propagates to a `crashed` result, modelling process termination.
-/

/-- Test whether the first list is an initial segment of the second
(the prefix test used by substring search in `strings.Replace`). -/
def leadsWith : List Char → List Char → Bool
  | [], _ => true
  | _ :: _, [] => false
  | a :: as, b :: bs => a == b && leadsWith as bs

/-- Substring occurrence test on character lists: does `old` occur
(contiguously) somewhere in the list?  Mirrors Go `strings.Contains`. -/
def containsL (old : List Char) : List Char → Bool
  | [] => old.isEmpty
  | c :: rest => leadsWith old (c :: rest) || containsL old rest

/-- Helper for Go `strings.Replace` with an empty pattern: `c :: rest`
becomes `c ++ new ++ …`, inserting `new` after every character. -/
def interleaveIns (new : List Char) : List Char → List Char
  | [] => []
  | c :: rest => c :: (new ++ interleaveIns new rest)

/-- Fuel-indexed leftmost non-overlapping replace-all on character lists.
With `fuel ≥ s.length` this computes Go's
`strings.Replace(s, old, new, -1)` for a non-empty pattern `old`:
at each position, if `old` starts here, emit `new` and skip `old.length`
characters, otherwise copy one character.  The fuel makes the definition
structurally recursive and therefore kernel-reducible. -/
def goReplace (old new : List Char) : Nat → List Char → List Char
  | _, [] => []
  | 0, s => s
  | Nat.succ fuel, c :: rest =>
    if leadsWith old (c :: rest) then
      new ++ goReplace old new fuel (rest.drop (old.length - 1))
    else
      c :: goReplace old new fuel rest

/-- Go `strings.Replace(s, old, new, -1)` (replace all non-overlapping
occurrences, leftmost first).  For an empty `old`, Go matches before every
character and at the end of the string, yielding `len(s)+1` insertions. -/
def strReplaceAll (s old new : String) : String :=
  if old.data = [] then
    String.mk (new.data ++ interleaveIns new.data s.data)
  else
    String.mk (goReplace old.data new.data s.data.length s.data)

/-- Go `strings.Contains(s, old)` at the `String` level. -/
def strContains (s old : String) : Bool :=
  containsL old.data s.data

-- Basic facts about `leadsWith`.

-- If the pattern does not occur, `goReplace` is the identity.

-- ### Directory trees and `filepath.Walk`
-- `filepath.Walk` visits the tree below the given root; the walk function in
-- `ListFiles` records, for every visited path other than the root, its path
-- relative to the root, appending "/" to directory entries.  The tree is
-- encoded as a mutual inductive pair so that the walk is structurally
-- recursive (and hence computable by the kernel).  Go visits directory
-- entries in lexical order; the embedding visits them in stored order,
-- which is the same up to the ordering of sibling entries.

mutual
inductive Entry where
  | file (name : String) (content : String)
  | dir (name : String) (children : EntryList)
deriving Repr
inductive EntryList where
  | nil
  | cons (e : Entry) (es : EntryList)
deriving Repr
end

/-- View an `EntryList` as an ordinary list (for membership statements). -/
def toListEL : EntryList → List Entry
  | EntryList.nil => []
  | EntryList.cons e es => e :: toListEL es

/-- Build an `EntryList` from an ordinary list (for concrete examples). -/
def elOf : List Entry → EntryList
  | [] => EntryList.nil
  | e :: es => EntryList.cons e (elOf es)

/-- Join a relative path and an entry name with "/"; `filepath.Rel` yields
the bare name for entries directly below the root. -/
def relJoin (pre name : String) : String :=
  if pre = "" then name else pre ++ "/" ++ name

mutual
/-- The paths recorded by the `ListFiles` walk function for one entry:
its own relative path (with "/" appended for a directory) followed by the
relative paths of everything below it. -/
def walkEntry (pre : String) : Entry → List String
  | Entry.file n _ => [relJoin pre n]
  | Entry.dir n cs => (relJoin pre n ++ "/") :: walkEntries (relJoin pre n) cs
/-- The paths recorded by the `ListFiles` walk for a list of sibling
entries, in traversal order. -/
def walkEntries (pre : String) : EntryList → List String
  | EntryList.nil => []
  | EntryList.cons e es => walkEntry pre e ++ walkEntries pre es
end

/-- The first name of an entry (used to resolve path components). -/
def entryName : Entry → String
  | Entry.file n _ => n
  | Entry.dir n _ => n

/-- Look up a directory entry by name. -/
def findEntry (name : String) : EntryList → Option Entry
  | EntryList.nil => none
  | EntryList.cons e es => if entryName e = name then some e else findEntry name es

/-- Result of resolving the `path` argument of `list_files` against the
working directory's tree: a directory (with its children), a plain file,
or nothing. -/
inductive Resolved
  | dirE (children : EntryList)
  | fileE
  | missing

/-- Resolve a list of path components. -/
def resolveComps : List String → EntryList → Resolved
  | [], es => Resolved.dirE es
  | c :: cs, es =>
    match findEntry c es with
    | none => Resolved.missing
    | some (Entry.file _ _) =>
      match cs with
      | [] => Resolved.fileE
      | _ :: _ => Resolved.missing
    | some (Entry.dir _ children) => resolveComps cs children

-- ### Path splitting (kernel-computable stand-ins for `String.splitOn "/"`)

/-- Split a character list at '/' separators. -/
def splitSlash : List Char → List (List Char)
  | [] => [[]]
  | c :: rest =>
    match splitSlash rest with
    | [] => [[]]
    | seg :: segs => if c = '/' then [] :: seg :: segs else (c :: seg) :: segs

/-- Path components of a path string. -/
def pathComps (p : String) : List String :=
  (splitSlash p.data).map String.mk

/-- Go `path.Dir` for the clean relative paths this program handles:
everything before the final "/", or "." when there is no "/".  (Go
additionally runs `path.Clean`; for already-clean paths the results
agree.) -/
def pathDir (p : String) : String :=
  let parts := pathComps p
  if parts.length ≤ 1 then "."
  else
    let d := String.intercalate "/" parts.dropLast
    if d = "" then "/" else d

/-- Resolve the `list_files` directory argument against the working
directory's tree. -/
def resolveDir (tree : EntryList) (dir : String) : Resolved :=
  if dir = "." then Resolved.dirE tree else resolveComps (pathComps dir) tree

-- ### `encoding/json` marshalling of the collected entry list

/-- Escape one character as in a JSON string literal.  (Go additionally
escapes control and HTML-significant characters; the file names involved
here contain none of those.) -/
def jsonEscape (c : Char) : String :=
  if c = Char.ofNat 34 then String.mk [Char.ofNat 92, Char.ofNat 34]
  else if c = Char.ofNat 92 then String.mk [Char.ofNat 92, Char.ofNat 92]
  else String.mk [c]

/-- A JSON string literal. -/
def jsonQuote (s : String) : String :=
  String.mk [Char.ofNat 34] ++ String.join (s.data.map jsonEscape) ++ String.mk [Char.ofNat 34]

/-- `json.Marshal` of the `files` slice built by `ListFiles`.  The slice is
declared `var files []string` and is `nil` when no entry was appended, and
`json.Marshal` renders a nil slice as `null`, not `[]`. -/
def marshal (xs : List String) : String :=
  if xs.isEmpty then "null"
  else "[" ++ String.intercalate "," (xs.map jsonQuote) ++ "]"

-- ### The operating system model

/-- The state of the operating system as seen by the program: the flat
file map consulted by `os.ReadFile` and updated by `os.WriteFile`, the
set of directories created via `os.MkdirAll`, and the directory tree
below the working directory as walked by `filepath.Walk`. -/
structure World where
  files : String → Option String
  dirs : List String
  tree : EntryList

/-- `os.ReadFile`: the empty path never names an existing file. -/
def osReadFile (w : World) (p : String) : Option String :=
  if p = "" then none else w.files p

/-- `os.WriteFile` (permission failures are outside the model). -/
def osWriteFile (w : World) (p : String) (c : String) : World :=
  { w with files := fun q => if q = p then some c else w.files q }

/-- A world with no files. -/
def emptyWorld : World :=
  { files := fun _ => none, dirs := [], tree := EntryList.nil }

-- ### Errors and raw tool input

/-- The error values produced by the tool implementations: `os` not-exist
errors, `encoding/json` decode errors, and `fmt.Errorf` messages. -/
inductive GoError
  | notExist (p : String)
  | decodeErr
  | other (msg : String)
deriving DecidableEq, Repr

/-- `err.Error()`.  The precise text of the `os` and `encoding/json`
messages is environment-supplied; stand-in renderings are used, and no
claim depends on them. -/
def errString : GoError → String
  | GoError.notExist p => "open " ++ p ++ ": no such file or directory"
  | GoError.decodeErr => "json: cannot unmarshal tool input"
  | GoError.other msg => msg

/-- The raw JSON payload of a tool invocation, as handed to
`json.Unmarshal`.  A well-formed object carries optional `path`,
`old_str` and `new_str` string fields (absent fields decode to `""`, the
Go zero value); `malformed` stands for any payload that fails to decode
against the tools' input structs. -/
inductive RawJson
  | obj (path : Option String) (oldStr : Option String) (newStr : Option String)
  | malformed
deriving DecidableEq, Repr

deriving instance DecidableEq for Except

/-- Outcome of running code that may `panic`: either a value or an
uncaught fault carrying the panic message. -/
inductive Outcome (α : Type)
  | ok (a : α)
  | panic (msg : String)
deriving DecidableEq, Repr

-- ### The three tools
-- Each Go tool has signature `func(input json.RawMessage) (string, error)`
-- and acts on the operating system; the embedding makes the `World`
-- explicit.  `ReadFile` and `ListFiles` call `panic(err)` when
-- `json.Unmarshal` fails, so their results are wrapped in `Outcome`;
-- `EditFile` returns the decode error as an ordinary error.

/-- The `read_file` tool (`ReadFile` in the source): decode the input
(panicking on a decode failure), then return the file's contents or the
`os.ReadFile` error. -/
def ReadFile (w : World) (input : RawJson) : Outcome (Except GoError String) :=
  match input with
  | RawJson.malformed => Outcome.panic (errString GoError.decodeErr)
  | RawJson.obj p _ _ =>
    let path := p.getD ""
    match osReadFile w path with
    | none => Outcome.ok (Except.error (GoError.notExist path))
    | some content => Outcome.ok (Except.ok content)

/-- The `list_files` tool (`ListFiles` in the source): decode the input
(panicking on a decode failure), default the directory to ".", walk the
tree rooted there recording relative paths (directories suffixed with
"/", the root entry "." excluded), and marshal the collected slice. -/
def ListFiles (w : World) (input : RawJson) : Outcome (Except GoError String) :=
  match input with
  | RawJson.malformed => Outcome.panic (errString GoError.decodeErr)
  | RawJson.obj p _ _ =>
    let dir := if p.getD "" = "" then "." else p.getD ""
    match resolveDir w.tree dir with
    | Resolved.missing => Outcome.ok (Except.error (GoError.notExist dir))
    | Resolved.fileE => Outcome.ok (Except.ok (marshal []))
    | Resolved.dirE es => Outcome.ok (Except.ok (marshal (walkEntries "" es)))

/-- `createNewFile` in the source: create the parent directory when it is
not ".", then write `content` as the new file's contents and report
success. -/
def createNewFile (w : World) (filePath : String) (content : String) :
    Except GoError String × World :=
  let dir := pathDir filePath
  let w1 := if dir = "." then w else { w with dirs := dir :: w.dirs }
  (Except.ok ("Successfully created file " ++ filePath), osWriteFile w1 filePath content)

/-- The `edit_file` tool (`EditFile` in the source): a decode failure is a
recoverable error; then the guard `path == "" || old_str == new_str`
rejects the input; a missing file with empty `old_str` becomes a create;
otherwise all occurrences of `old_str` are replaced, an unchanged result
with non-empty `old_str` is the "not found" error, and the new contents
are written back. -/
def EditFile (w : World) (input : RawJson) : Except GoError String × World :=
  match input with
  | RawJson.malformed => (Except.error GoError.decodeErr, w)
  | RawJson.obj p o n =>
    let path := p.getD ""
    let old := o.getD ""
    let new := n.getD ""
    if path = "" ∨ old = new then (Except.error (GoError.other "invalid input parameters"), w)
    else
      match osReadFile w path with
      | none =>
        if old = "" then createNewFile w path new
        else (Except.error (GoError.notExist path), w)
      | some content =>
        let newContent := strReplaceAll content old new
        if newContent = content ∧ ¬ old = "" then
          (Except.error (GoError.other "old_str not found in file"), w)
        else
          (Except.ok "OK", osWriteFile w path newContent)

-- ### The tool registry and the dispatcher

/-- The three registered tools. -/
inductive ToolKind
  | readF
  | listF
  | editF
deriving DecidableEq, Repr

/-- The registry built in `main`: `[ReadFileDefinition, ListFilesDefinition,
EditFileDefinition]`, keyed by tool name. -/
def toolRegistry : List (String × ToolKind) :=
  [("read_file", ToolKind.readF), ("list_files", ToolKind.listF), ("edit_file", ToolKind.editF)]

/-- First registry entry whose name matches, as in the loop at the top of
`executeTool`. -/
def findTool (name : String) : Option ToolKind :=
  (toolRegistry.find? (fun t => t.fst == name)).map (fun t => t.snd)

-- ### Conversation data model

/-- Who contributed a turn (`anthropic.NewUserMessage` vs the model's
`message.ToParam()`). -/
inductive Role
  | user
  | assistant
deriving DecidableEq, Repr

/-- One content block of a turn.  The model emits `text` and `toolUse`
blocks (and possibly others, which the loop ignores — `otherBlock`); the
loop emits `text` (human input) and `toolResult` blocks. -/
inductive ContentBlock
  | text (body : String)
  | toolUse (id : String) (name : String) (input : RawJson)
  | toolResult (invocationId : String) (output : String) (isError : Bool)
  | otherBlock
deriving DecidableEq, Repr

/-- One turn of the conversation transcript. -/
structure Turn where
  role : Role
  content : List ContentBlock
deriving DecidableEq, Repr

/-- `Agent.executeTool`: look the name up in the registry ("tool not
found" result on a miss), run the tool, and convert its outcome into a
`toolResult` block — `is_error=true` carrying `err.Error()` on failure.
A `panic` raised by the tool propagates. -/
def executeTool (w : World) (tid : String) (name : String) (input : RawJson) :
    Outcome (ContentBlock × World) :=
  match findTool name with
  | none => Outcome.ok (ContentBlock.toolResult tid "tool not found" true, w)
  | some ToolKind.readF =>
    match ReadFile w input with
    | Outcome.panic m => Outcome.panic m
    | Outcome.ok (Except.error e) => Outcome.ok (ContentBlock.toolResult tid (errString e) true, w)
    | Outcome.ok (Except.ok s) => Outcome.ok (ContentBlock.toolResult tid s false, w)
  | some ToolKind.listF =>
    match ListFiles w input with
    | Outcome.panic m => Outcome.panic m
    | Outcome.ok (Except.error e) => Outcome.ok (ContentBlock.toolResult tid (errString e) true, w)
    | Outcome.ok (Except.ok s) => Outcome.ok (ContentBlock.toolResult tid s false, w)
  | some ToolKind.editF =>
    match EditFile w input with
    | (Except.error e, w1) => Outcome.ok (ContentBlock.toolResult tid (errString e) true, w1)
    | (Except.ok s, w1) => Outcome.ok (ContentBlock.toolResult tid s false, w1)

-- ### The orchestration loop (`Agent.Run`)

/-- How a run ended: the human closed the input stream (`finished`), the
inference gateway failed (`failed`), an uncaught `panic` terminated the
process (`crashed`), or the analysis fuel ran out (`fuelOut`). -/
inductive RunOutcome
  | finished
  | failed (e : GoError)
  | crashed (msg : String)
  | fuelOut
deriving DecidableEq, Repr

/-- The observable result of a run: how it ended, the conversation
transcript accumulated so far, and the final state of the world. -/
structure RunResult where
  outcome : RunOutcome
  conv : List Turn
  world : World

/-- Reading one line of human input: `none` models a closed stream
(scanner returns false), otherwise the line is appended as a user text
turn. -/
def consumeInput (conv : List Turn) (inputs : List String) :
    Option (List Turn × List String) :=
  match inputs with
  | [] => none
  | i :: rest => some (conv ++ [Turn.mk Role.user [ContentBlock.text i]], rest)

/-- The content-block loop inside `Agent.Run`: `text` blocks are printed
(no state change), `tool_use` blocks are dispatched in order accumulating
`toolResult` blocks and threading the world, and any other block is
ignored.  A tool `panic` aborts the whole process. -/
def processBlocks (w : World) : List ContentBlock → Outcome (List ContentBlock × World)
  | [] => Outcome.ok ([], w)
  | b :: bs =>
    match b with
    | ContentBlock.toolUse tid name input =>
      match executeTool w tid name input with
      | Outcome.panic m => Outcome.panic m
      | Outcome.ok (res, w1) =>
        match processBlocks w1 bs with
        | Outcome.panic m => Outcome.panic m
        | Outcome.ok (results, w2) => Outcome.ok (res :: results, w2)
    | _ => processBlocks w bs

/-- `Agent.Run`, one constructor application per loop iteration.  The
model is an oracle from the transcript to a response; `inputs` is the
sequence of human lines still unread; `readUserInput` mirrors the flag of
the same name.  The fuel bounds the number of iterations analysed; the Go
loop itself is unbounded. -/
def run (oracle : List Turn → Except GoError (List ContentBlock)) :
    Nat → World → List Turn → List String → Bool → RunResult
  | 0, w, conv, _, _ => RunResult.mk RunOutcome.fuelOut conv w
  | Nat.succ fuel, w, conv, inputs, readUserInput =>
    match (if readUserInput then consumeInput conv inputs else some (conv, inputs)) with
    | none => RunResult.mk RunOutcome.finished conv w
    | some (conv1, rest) =>
      match oracle conv1 with
      | Except.error e => RunResult.mk (RunOutcome.failed e) conv1 w
      | Except.ok blocks =>
        match processBlocks w blocks with
        | Outcome.panic m =>
          RunResult.mk (RunOutcome.crashed m) (conv1 ++ [Turn.mk Role.assistant blocks]) w
        | Outcome.ok (results, w2) =>
          if results.isEmpty then
            run oracle fuel w2 (conv1 ++ [Turn.mk Role.assistant blocks]) rest true
          else
            run oracle fuel w2
              (conv1 ++ [Turn.mk Role.assistant blocks, Turn.mk Role.user results]) rest false

-- Length bounds for `goReplace`.

-- If the pattern occurs and differs from the replacement, `goReplace`
-- changes the list.

-- Lifting to `String`.

-- ### edit_file behaviour

/-- The world for claim C3's counterexample: a single file `f` with
contents "abc". -/
def wC3 : World :=
  { files := fun q => if q = "f" then some "abc" else none, dirs := [], tree := EntryList.nil }

/-- The world for claim C3's witness: a single file `f` with contents
"abc". -/
def wC3w : World :=
  { files := fun q => if q = "f" then some "abc" else none, dirs := [], tree := EntryList.nil }

/-- The world for claim C6's counterexample: a single file `f` with
contents "abc". -/
def wC6 : World :=
  { files := fun q => if q = "f" then some "abc" else none, dirs := [], tree := EntryList.nil }

/-- The world for claim C6's witness: a single file `f` with contents
"aXbXc", containing two occurrences of "X". -/
def wC6w : World :=
  { files := fun q => if q = "f" then some "aXbXc" else none, dirs := [], tree := EntryList.nil }

-- ### Dispatch behaviour of `executeTool`

/-- Model oracle for claim C2: every response is a single `read_file`
invocation whose raw input does not decode. -/
def c2oracle : List Turn → Except GoError (List ContentBlock) :=
  fun _ => Except.ok [ContentBlock.toolUse "t1" "read_file" RawJson.malformed]

/-- Model oracle for claim C7: the first response (transcript length 1)
requests one invocation of the tool named `name`; every later response is
plain text. -/
def c7oracle (name : String) : List Turn → Except GoError (List ContentBlock) :=
  fun conv =>
    if conv.length = 1 then
      Except.ok [ContentBlock.toolUse "t1" name (RawJson.obj none none none)]
    else
      Except.ok [ContentBlock.text "done"]

-- ### Text-only conversations (claim C8)

/-- Is a content block a tool invocation? -/
def isToolUseB : ContentBlock → Bool
  | ContentBlock.toolUse _ _ _ => true
  | _ => false

/-- A model response with no tool invocations. -/
def blocksNoToolUse (bs : List ContentBlock) : Bool :=
  bs.all (fun b => !isToolUseB b)

/-- Total lookup in a list of responses (the Go zero value, an empty
response, past the end). -/
def nthResponse : List (List ContentBlock) → Nat → List ContentBlock
  | [], _ => []
  | b :: _, 0 => b
  | _ :: t, Nat.succ n => nthResponse t n

/-- An oracle replaying a fixed list of model responses: the i-th model
call sees a transcript of length 2i+1, so the response index is half the
transcript length. -/
def listOracle (rs : List (List ContentBlock)) (conv : List Turn) :
    Except GoError (List ContentBlock) :=
  Except.ok (nthResponse rs (conv.length / 2))

/-- The transcript extension produced by N tool-free exchanges: turn 2k is
the user's k-th line, turn 2k+1 is a model turn. -/
def alternates : List String → List Turn → Prop
  | [], [] => True
  | i :: is, u :: a :: rest =>
    u = Turn.mk Role.user [ContentBlock.text i] ∧ a.role = Role.assistant ∧ alternates is rest
  | _, _ => False

-- ### list_files behaviour

/-- The working directory for claim C9: exactly one file `a.txt` and one
empty subdirectory `sub`. -/
def wC9 : World :=
  { files := fun _ => none, dirs := [],
    tree := elOf [Entry.file "a.txt" "hello", Entry.dir "sub" EntryList.nil] }

/-- The path an entry of a subdirectory `n` contributes to the walk of
the root: `n`, a "/", the entry's name, and a trailing "/" when the
entry is itself a directory. -/
def nestedPath (n : String) : Entry → String
  | Entry.file m _ => n ++ "/" ++ m
  | Entry.dir m _ => n ++ "/" ++ m ++ "/"

/-- The first path the walk records for an entry. -/
def entryHeadPath (pre : String) : Entry → String
  | Entry.file m _ => relJoin pre m
  | Entry.dir m _ => relJoin pre m ++ "/"

/-- The working directory for claim C10's witness: the single
subdirectory `sub` containing the single file `f.txt`. -/
def wC10 : World :=
  { files := fun _ => none, dirs := [],
    tree := elOf [Entry.dir "sub" (elOf [Entry.file "f.txt" ""])] }

-- ## Theorems

theorem leadsWith_iff (a : List Char) : ∀ s : List Char,
    leadsWith a s = true ↔ ∃ t, s = a ++ t := by
  induction a with
  | nil =>
    intro s
    simp [leadsWith]
  | cons x xs ih =>
    intro s
    cases s with
    | nil => simp [leadsWith]
    | cons b bs =>
      simp only [leadsWith, Bool.and_eq_true, beq_iff_eq, ih bs]
      constructor
      · rintro ⟨rfl, t, rfl⟩
        exact ⟨t, rfl⟩
      · rintro ⟨t, ht⟩
        simp only [List.cons_append, List.cons.injEq] at ht
        exact ⟨ht.1.symm, t, ht.2⟩

theorem leadsWith_length_le {a s : List Char} (h : leadsWith a s = true) :
    a.length ≤ s.length := by
  obtain ⟨t, rfl⟩ := (leadsWith_iff a s).mp h
  simp

theorem goReplace_of_not_contains (old new : List Char) :
    ∀ (fuel : Nat) (s : List Char), containsL old s = false →
      goReplace old new fuel s = s := by
  intro fuel
  induction fuel with
  | zero =>
    intro s _
    cases s <;> rfl
  | succ fuel ih =>
    intro s hc
    cases s with
    | nil => rfl
    | cons c rest =>
      simp only [containsL, Bool.or_eq_false_iff] at hc
      simp only [goReplace, hc.1, if_neg]
      simp [ih rest hc.2]

theorem goReplace_length_le (old new : List Char) (hlen : new.length ≤ old.length) :
    ∀ (fuel : Nat) (s : List Char), (goReplace old new fuel s).length ≤ s.length := by
  intro fuel
  induction fuel with
  | zero =>
    intro s
    cases s <;> simp [goReplace]
  | succ fuel ih =>
    intro s
    cases s with
    | nil => simp [goReplace]
    | cons c rest =>
      by_cases h : leadsWith old (c :: rest) = true
      · have hle : old.length ≤ rest.length + 1 := by
          simpa using leadsWith_length_le h
        have hdrop : (rest.drop (old.length - 1)).length = rest.length - (old.length - 1) :=
          List.length_drop _ _
        have := ih (rest.drop (old.length - 1))
        simp only [goReplace, h, if_pos, List.length_append, List.length_cons]
        omega
      · simp only [goReplace, h, if_neg, Bool.false_eq_true, not_false_iff, List.length_cons]
        have := ih rest
        omega

theorem goReplace_length_ge (old new : List Char) (hold : old ≠ [])
    (hlen : old.length ≤ new.length) :
    ∀ (fuel : Nat) (s : List Char), s.length ≤ (goReplace old new fuel s).length := by
  intro fuel
  induction fuel with
  | zero =>
    intro s
    cases s <;> simp [goReplace]
  | succ fuel ih =>
    intro s
    cases s with
    | nil => simp [goReplace]
    | cons c rest =>
      by_cases h : leadsWith old (c :: rest) = true
      · have hle : old.length ≤ rest.length + 1 := by
          simpa using leadsWith_length_le h
        have hpos : 1 ≤ old.length := List.length_pos.mpr hold
        have hdrop : (rest.drop (old.length - 1)).length = rest.length - (old.length - 1) :=
          List.length_drop _ _
        have := ih (rest.drop (old.length - 1))
        simp only [goReplace, h, if_pos, List.length_append, List.length_cons]
        omega
      · simp only [goReplace, h, if_neg, Bool.false_eq_true, not_false_iff, List.length_cons]
        have := ih rest
        omega

theorem goReplace_ne (old new : List Char) (hold : old ≠ []) (hne : old ≠ new) :
    ∀ (fuel : Nat) (s : List Char), containsL old s = true → s.length ≤ fuel →
      goReplace old new fuel s ≠ s := by
  intro fuel
  induction fuel with
  | zero =>
    intro s hc hf
    have hnil : s = [] := List.eq_nil_of_length_eq_zero (Nat.le_zero.mp hf)
    subst hnil
    simp [containsL, List.isEmpty_iff, hold] at hc
  | succ fuel ih =>
    intro s hc hf
    cases s with
    | nil => simp [containsL, List.isEmpty_iff, hold] at hc
    | cons c rest =>
      by_cases h : leadsWith old (c :: rest) = true
      · obtain ⟨t, ht⟩ := (leadsWith_iff old (c :: rest)).mp h
        have hpos : 1 ≤ old.length := List.length_pos.mpr hold
        have hdrop : rest.drop (old.length - 1) = t := by
          have h1 : (c :: rest).drop old.length = t := by
            rw [ht]; exact List.drop_left old t
          obtain ⟨k, hk⟩ : ∃ k, old.length = k + 1 := ⟨old.length - 1, by omega⟩
          rw [hk, List.drop_succ_cons] at h1
          rw [hk]
          simpa using h1
        simp only [goReplace, h, if_pos, hdrop]
        rw [ht]
        intro heq
        rcases List.append_eq_append_iff.mp heq with ⟨a', ha1, ha2⟩ | ⟨c', hc1, hc2⟩
        · by_cases ha : a' = []
          · exact hne (by simpa [ha] using ha1)
          · have hlen1 : old.length = new.length + a'.length := by
              rw [ha1]; simp
            have hlen2 := congrArg List.length ha2
            simp only [List.length_append] at hlen2
            have hle : (goReplace old new fuel t).length ≤ t.length :=
              goReplace_length_le old new (by omega) fuel t
            have hapos : 0 < a'.length := List.length_pos.mpr ha
            omega
        · by_cases hcnil : c' = []
          · exact hne (by simpa [hcnil] using hc1.symm)
          · have hlen1 : new.length = old.length + c'.length := by
              rw [hc1]; simp
            have hlen2 := congrArg List.length hc2
            simp only [List.length_append] at hlen2
            have hge : t.length ≤ (goReplace old new fuel t).length :=
              goReplace_length_ge old new hold (by omega) fuel t
            have hcpos : 0 < c'.length := List.length_pos.mpr hcnil
            omega
      · simp only [containsL, Bool.or_eq_true] at hc
        rcases hc with hc | hc
        · exact absurd hc h
        · simp only [goReplace, h, if_neg, Bool.false_eq_true, not_false_iff]
          intro heq
          have htl := (List.cons.inj heq).2
          have hf' : rest.length ≤ fuel := by
            simp only [List.length_cons] at hf
            omega
          exact ih rest hc hf' htl

theorem string_data_nil_iff (s : String) : s.data = [] ↔ s = "" := by
  constructor
  · intro h
    have : String.mk s.data = String.mk [] := by rw [h]
    simpa using this
  · intro h
    rw [h]

theorem strReplaceAll_eq_self (content old new : String) (hold : old ≠ "")
    (h : strContains content old = false) : strReplaceAll content old new = content := by
  have hdata : old.data ≠ [] := fun hd => hold ((string_data_nil_iff old).mp hd)
  unfold strReplaceAll
  rw [if_neg hdata]
  rw [goReplace_of_not_contains old.data new.data content.data.length content.data h]

theorem strReplaceAll_ne_self (content old new : String) (hold : old ≠ "")
    (hne : old ≠ new) (h : strContains content old = true) :
    strReplaceAll content old new ≠ content := by
  have hdata : old.data ≠ [] := fun hd => hold ((string_data_nil_iff old).mp hd)
  have hdne : old.data ≠ new.data := by
    intro hd
    apply hne
    have : String.mk old.data = String.mk new.data := by rw [hd]
    simpa using this
  unfold strReplaceAll
  rw [if_neg hdata]
  intro heq
  have hx : goReplace old.data new.data content.data.length content.data = content.data :=
    congrArg String.data heq
  exact goReplace_ne old.data new.data hdata hdne content.data.length content.data h
    (Nat.le_refl _) hx

theorem osReadFile_some_ne_empty {w : World} {p : String} {c : String}
    (h : osReadFile w p = some c) : p ≠ "" := by
  intro hp
  rw [hp] at h
  simp [osReadFile] at h

theorem alternates_length : ∀ (is : List String) (ts : List Turn),
    alternates is ts → ts.length = 2 * is.length := by
  intro is
  induction is with
  | nil =>
    intro ts h
    cases ts with
    | nil => simp
    | cons t ts' => simp [alternates] at h
  | cons i is ih =>
    intro ts h
    match ts with
    | [] => simp [alternates] at h
    | [t] => simp [alternates] at h
    | u :: a :: rest =>
      obtain ⟨_, _, hrest⟩ := h
      have := ih rest hrest
      simp only [List.length_cons, this]
      omega

theorem nthResponse_all {p : List ContentBlock → Bool} {rs : List (List ContentBlock)}
    (h : rs.all p = true) (hnil : p [] = true) : ∀ i, p (nthResponse rs i) = true := by
  induction rs with
  | nil => intro i; cases i <;> exact hnil
  | cons r rs ih =>
    simp only [List.all_cons, Bool.and_eq_true] at h
    intro i
    cases i with
    | zero => exact h.1
    | succ n => exact ih h.2 n

theorem processBlocks_no_toolUse (w : World) :
    ∀ (bs : List ContentBlock), blocksNoToolUse bs = true →
      processBlocks w bs = Outcome.ok ([], w) := by
  intro bs
  induction bs with
  | nil => intro _; rfl
  | cons b bs ih =>
    intro h
    simp only [blocksNoToolUse, List.all_cons, Bool.and_eq_true] at h
    cases b with
    | text s => exact ih (by simp [blocksNoToolUse, h.2])
    | toolUse tid name input => simp [isToolUseB] at h
    | toolResult i o e => exact ih (by simp [blocksNoToolUse, h.2])
    | otherBlock => exact ih (by simp [blocksNoToolUse, h.2])

theorem run_text_only_general (oracle : List Turn → Except GoError (List ContentBlock))
    (h : ∀ c, ∃ bs, oracle c = Except.ok bs ∧ blocksNoToolUse bs = true) :
    ∀ (inputs : List String) (w : World) (conv : List Turn),
      ∃ ext, run oracle (inputs.length + 1) w conv inputs true =
        RunResult.mk RunOutcome.finished (conv ++ ext) w ∧ alternates inputs ext := by
  intro inputs
  induction inputs with
  | nil =>
    intro w conv
    refine ⟨[], ?_, trivial⟩
    simp [run, consumeInput]
  | cons i is ih =>
    intro w conv
    obtain ⟨bs, hbs, hno⟩ := h (conv ++ [Turn.mk Role.user [ContentBlock.text i]])
    obtain ⟨ext', heq, halt⟩ :=
      ih w (conv ++ [Turn.mk Role.user [ContentBlock.text i], Turn.mk Role.assistant bs])
    refine ⟨Turn.mk Role.user [ContentBlock.text i] :: Turn.mk Role.assistant bs :: ext',
      ?_, rfl, rfl, halt⟩
    show run oracle (Nat.succ (is.length + 1)) w conv (i :: is) true = _
    rw [run]
    simp only [if_pos, consumeInput]
    rw [hbs]
    have hstep : (conv ++ [Turn.mk Role.user [ContentBlock.text i]]) ++
        [Turn.mk Role.assistant bs] =
        conv ++ [Turn.mk Role.user [ContentBlock.text i], Turn.mk Role.assistant bs] := by
      simp
    simp only [processBlocks_no_toolUse w bs hno, List.isEmpty_nil, eq_self_iff_true, if_true,
      hstep, heq]
    simp [List.append_assoc]

theorem mem_walkEntries_head (pre : String) (e : Entry) :
    ∀ (cs : EntryList), e ∈ toListEL cs → entryHeadPath pre e ∈ walkEntries pre cs
  | EntryList.nil, h => by simp [toListEL] at h
  | EntryList.cons x es, h => by
    simp only [toListEL, List.mem_cons] at h
    rcases h with rfl | h
    · cases e with
      | file m c => simp [walkEntries, walkEntry, entryHeadPath]
      | dir m cs' => simp [walkEntries, walkEntry, entryHeadPath]
    · have := mem_walkEntries_head pre e es h
      simp only [walkEntries, List.mem_append]
      exact Or.inr this

theorem mem_walkEntries_subtree (pre n : String) (cs : EntryList) (x : String) :
    ∀ (es : EntryList), Entry.dir n cs ∈ toListEL es →
      x ∈ walkEntries (relJoin pre n) cs → x ∈ walkEntries pre es
  | EntryList.nil, h, _ => by simp [toListEL] at h
  | EntryList.cons y ys, h, hx => by
    simp only [toListEL, List.mem_cons] at h
    rcases h with heq | h
    · rw [← heq]
      simp only [walkEntries, walkEntry, List.mem_append, List.mem_cons]
      exact Or.inl (Or.inr hx)
    · have := mem_walkEntries_subtree pre n cs x ys h hx
      simp only [walkEntries, List.mem_append]
      exact Or.inr this

theorem entryHeadPath_eq_nestedPath (n : String) (hn : n ≠ "") (e : Entry) :
    entryHeadPath n e = nestedPath n e := by
  cases e <;> simp [entryHeadPath, nestedPath, relJoin, hn]

/-- Claim C1 (the bug evaluated at the failing input): `executeTool` does
not degrade every failure to an `is_error=true` result — for `read_file`
and `list_files`, an input that cannot be decoded reaches `panic(err)`
inside the tool and the fault propagates out of the dispatcher,
terminating the process; only `edit_file` returns the decode failure as a
recoverable `is_error=true` result. -/
theorem executeTool_panics_on_malformed_input :
    executeTool emptyWorld "t1" "read_file" RawJson.malformed =
      Outcome.panic (errString GoError.decodeErr) ∧
    executeTool emptyWorld "t1" "list_files" RawJson.malformed =
      Outcome.panic (errString GoError.decodeErr) ∧
    executeTool emptyWorld "t1" "edit_file" RawJson.malformed =
      Outcome.ok (ContentBlock.toolResult "t1" (errString GoError.decodeErr) true, emptyWorld) :=
  ⟨rfl, rfl, rfl⟩

/-- Claim C2 (the bug evaluated at the failing input): for a model turn
containing one `read_file` invocation with undecodable input, the loop
does not append a synthetic result turn and makes no further model call —
the `panic` raised inside the dispatcher crashes the run, leaving the
invocation without a `ToolResult` in the transcript. -/
theorem run_crashes_on_malformed_tool_input :
    run c2oracle 5 emptyWorld [] ["hi"] true =
      RunResult.mk (RunOutcome.crashed (errString GoError.decodeErr))
        [Turn.mk Role.user [ContentBlock.text "hi"],
         Turn.mk Role.assistant [ContentBlock.toolUse "t1" "read_file" RawJson.malformed]]
        emptyWorld :=
  rfl

/-- Claim C3 (amended): invoking `edit_file` on an existing file with a
non-empty `old_str` that differs from `new_str` and occurs nowhere in the
contents fails with "old_str not found in file" and leaves the world —
in particular the file's contents — unchanged. -/
theorem EditFile_old_str_not_found (w : World) (path content old new : String)
    (hread : osReadFile w path = some content) (hold : old ≠ "") (hne : old ≠ new)
    (hocc : strContains content old = false) :
    EditFile w (RawJson.obj (some path) (some old) (some new)) =
      (Except.error (GoError.other "old_str not found in file"), w) := by
  have hpath : path ≠ "" := osReadFile_some_ne_empty hread
  simp only [EditFile, Option.getD_some]
  rw [if_neg (by push_neg; exact ⟨hpath, hne⟩)]
  rw [hread]
  simp only [strReplaceAll_eq_self content old new hold hocc]
  rw [if_pos ⟨trivial, hold⟩]

/-- Claim C3, counterexample to the unamended statement: with
`old_str = new_str = "x"`, a non-empty `old_str` that occurs nowhere in
the existing file `f` (contents "abc"), `edit_file` fails with
"invalid input parameters" — the guard fires first — not with
"old_str not found in file" (the file is still left unchanged). -/
theorem EditFile_not_found_needs_distinct_strings :
    osReadFile wC3 "f" = some "abc" ∧
    ("x" : String) ≠ "" ∧
    strContains "abc" "x" = false ∧
    (EditFile wC3 (RawJson.obj (some "f") (some "x") (some "x"))).fst =
      Except.error (GoError.other "invalid input parameters") ∧
    (EditFile wC3 (RawJson.obj (some "f") (some "x") (some "x"))).fst ≠
      Except.error (GoError.other "old_str not found in file") ∧
    (EditFile wC3 (RawJson.obj (some "f") (some "x") (some "x"))).snd.files "f" = some "abc" := by
  decide

/-- Claim C3 witness: a concrete instance of
`EditFile_old_str_not_found`. -/
theorem EditFile_old_str_not_found_witness :
    osReadFile wC3w "f" = some "abc" ∧
    ("zz" : String) ≠ "" ∧ ("zz" : String) ≠ "y" ∧ strContains "abc" "zz" = false ∧
    EditFile wC3w (RawJson.obj (some "f") (some "zz") (some "y")) =
      (Except.error (GoError.other "old_str not found in file"), wC3w) :=
  ⟨by decide, by decide, by decide, by decide,
    EditFile_old_str_not_found wC3w "f" "abc" "zz" "y" (by decide) (by decide) (by decide)
      (by decide)⟩

/-- Claim C4: invoking `edit_file` with `old_str = new_str` (non-empty)
fails with "invalid input parameters" whatever the path and whatever the
state of the filesystem, which is left unchanged. -/
theorem EditFile_same_strings_invalid (w : World) (path s : String) ( _hs : s ≠ "") :
    EditFile w (RawJson.obj (some path) (some s) (some s)) =
      (Except.error (GoError.other "invalid input parameters"), w) := by
  simp [EditFile]

/-- Claim C4 witness: `EditFile_same_strings_invalid` on a world where the
file exists and on one where it does not. -/
theorem EditFile_same_strings_invalid_witness :
    ("x" : String) ≠ "" ∧
    EditFile wC3 (RawJson.obj (some "f") (some "x") (some "x"))
      = (Except.error (GoError.other "invalid input parameters"), wC3) ∧
    EditFile emptyWorld (RawJson.obj (some "g") (some "x") (some "x"))
      = (Except.error (GoError.other "invalid input parameters"), emptyWorld) :=
  ⟨by decide, EditFile_same_strings_invalid wC3 "f" "x" (by decide),
    EditFile_same_strings_invalid emptyWorld "g" "x" (by decide)⟩

/-- Claim C5 (amended): invoking `edit_file` at a non-existent, non-empty
path with empty `old_str` and non-empty `new_str` creates the file: the
result is the creation-confirmation message (not "OK"), the parent
directory reported by `path.Dir` is created via `os.MkdirAll` whenever it
is not ".", and reading the path back yields `new_str` verbatim. -/
theorem EditFile_creates_file (w : World) (path new : String)
    (hread : osReadFile w path = none) (hpath : path ≠ "") (hnew : new ≠ "") :
    EditFile w (RawJson.obj (some path) (some "") (some new)) =
      (Except.ok ("Successfully created file " ++ path),
        osWriteFile (if pathDir path = "." then w else { w with dirs := pathDir path :: w.dirs })
          path new) ∧
    osReadFile (EditFile w (RawJson.obj (some path) (some "") (some new))).snd path = some new ∧
    (EditFile w (RawJson.obj (some path) (some "") (some new))).snd.dirs =
      (if pathDir path = "." then w.dirs else pathDir path :: w.dirs) := by
  have hmain : EditFile w (RawJson.obj (some path) (some "") (some new)) =
      (Except.ok ("Successfully created file " ++ path),
        osWriteFile (if pathDir path = "." then w else { w with dirs := pathDir path :: w.dirs })
          path new) := by
    simp only [EditFile, Option.getD_some]
    rw [if_neg (by push_neg; exact ⟨hpath, fun h => hnew h.symm⟩)]
    rw [hread]
    simp only [createNewFile, if_true]
  refine ⟨hmain, ?_, ?_⟩
  · rw [hmain]
    simp [osReadFile, osWriteFile, hpath]
  · rw [hmain]
    by_cases hd : pathDir path = "." <;> simp [hd, osWriteFile]

/-- Claim C5, counterexample to the unamended statement: creating at the
non-existent path `f` with `old_str = ""` and `new_str = ""` does not
create a file — the guard `old_str == new_str` fires first and the call
fails with "invalid input parameters". -/
theorem EditFile_create_needs_nonempty_new :
    osReadFile emptyWorld "f" = none ∧
    (EditFile emptyWorld (RawJson.obj (some "f") (some "") (some ""))).fst =
      Except.error (GoError.other "invalid input parameters") ∧
    (EditFile emptyWorld (RawJson.obj (some "f") (some "") (some ""))).snd.files "f" = none := by
  decide

/-- Claim C5 witness: a concrete instance of `EditFile_creates_file` at
path "d/f", with the created parent directory and the read-back contents
evaluated. -/
theorem EditFile_creates_file_witness :
    osReadFile emptyWorld "d/f" = none ∧ ("d/f" : String) ≠ "" ∧ ("hello" : String) ≠ "" ∧
    (EditFile emptyWorld (RawJson.obj (some "d/f") (some "") (some "hello")) =
      (Except.ok ("Successfully created file " ++ "d/f"),
        osWriteFile
          (if pathDir "d/f" = "." then emptyWorld
           else { emptyWorld with dirs := pathDir "d/f" :: emptyWorld.dirs })
          "d/f" "hello") ∧
      osReadFile (EditFile emptyWorld (RawJson.obj (some "d/f") (some "") (some "hello"))).snd
        "d/f" = some "hello" ∧
      (EditFile emptyWorld (RawJson.obj (some "d/f") (some "") (some "hello"))).snd.dirs =
        (if pathDir "d/f" = "." then emptyWorld.dirs
         else pathDir "d/f" :: emptyWorld.dirs)) ∧
    pathDir "d/f" = "d" ∧
    (EditFile emptyWorld (RawJson.obj (some "d/f") (some "") (some "hello"))).fst ≠
      Except.ok "OK" :=
  ⟨by decide, by decide, by decide,
    EditFile_creates_file emptyWorld "d/f" "hello" (by decide) (by decide) (by decide),
    by decide, by decide⟩

/-- Claim C6 (amended): invoking `edit_file` on an existing file with a
non-empty `old_str` that differs from `new_str` and occurs in the
contents succeeds with the fixed string "OK" and writes back the contents
with all non-overlapping occurrences of `old_str` replaced by
`new_str`. -/
theorem EditFile_replaces_all (w : World) (path content old new : String)
    (hread : osReadFile w path = some content) (hold : old ≠ "") (hne : old ≠ new)
    (hocc : strContains content old = true) :
    EditFile w (RawJson.obj (some path) (some old) (some new)) =
      (Except.ok "OK", osWriteFile w path (strReplaceAll content old new)) := by
  have hpath : path ≠ "" := osReadFile_some_ne_empty hread
  simp only [EditFile, Option.getD_some]
  rw [if_neg (by push_neg; exact ⟨hpath, hne⟩)]
  rw [hread]
  show (if strReplaceAll content old new = content ∧ ¬ old = "" then
      (Except.error (GoError.other "old_str not found in file"), w)
    else (Except.ok "OK", osWriteFile w path (strReplaceAll content old new))) = _
  rw [if_neg (fun hand => strReplaceAll_ne_self content old new hold hne hocc hand.1)]

/-- Claim C6, counterexample to the unamended statement: with
`old_str = new_str = "a"`, a non-empty `old_str` that does occur in the
existing file `f` (contents "abc"), `edit_file` fails with
"invalid input parameters" instead of replacing and returning "OK". -/
theorem EditFile_replace_needs_distinct_strings :
    osReadFile wC6 "f" = some "abc" ∧
    ("a" : String) ≠ "" ∧
    strContains "abc" "a" = true ∧
    (EditFile wC6 (RawJson.obj (some "f") (some "a") (some "a"))).fst =
      Except.error (GoError.other "invalid input parameters") ∧
    (EditFile wC6 (RawJson.obj (some "f") (some "a") (some "a"))).fst ≠ Except.ok "OK" := by
  decide

/-- Claim C6 witness: a concrete instance of `EditFile_replaces_all`,
with the replaced contents evaluated — both occurrences of "X" in
"aXbXc" are replaced, not just the first. -/
theorem EditFile_replaces_all_witness :
    osReadFile wC6w "f" = some "aXbXc" ∧
    ("X" : String) ≠ "" ∧ ("X" : String) ≠ "YY" ∧ strContains "aXbXc" "X" = true ∧
    EditFile wC6w (RawJson.obj (some "f") (some "X") (some "YY")) =
      (Except.ok "OK", osWriteFile wC6w "f" (strReplaceAll "aXbXc" "X" "YY")) ∧
    strReplaceAll "aXbXc" "X" "YY" = "aYYbYYc" :=
  ⟨by decide, by decide, by decide, by decide,
    EditFile_replaces_all wC6w "f" "aXbXc" "X" "YY" (by decide) (by decide) (by decide)
      (by decide),
    by decide⟩

/-- Claim C7: dispatching an invocation whose name matches no registered
tool returns a `ToolResult` with `is_error=true` and output exactly
"tool not found" (for any world, id and input), the loop survives it, and
a subsequent human turn ("b") is still solicited and answered in the same
run, which then terminates normally. -/
theorem executeTool_unknown_tool (name : String) (w : World) (tid : String) (input : RawJson)
    (h : name ∉ toolRegistry.map Prod.fst) :
    executeTool w tid name input =
      Outcome.ok (ContentBlock.toolResult tid "tool not found" true, w) ∧
    run (c7oracle name) 10 emptyWorld [] ["a", "b"] true =
      RunResult.mk RunOutcome.finished
        [Turn.mk Role.user [ContentBlock.text "a"],
         Turn.mk Role.assistant [ContentBlock.toolUse "t1" name (RawJson.obj none none none)],
         Turn.mk Role.user [ContentBlock.toolResult "t1" "tool not found" true],
         Turn.mk Role.assistant [ContentBlock.text "done"],
         Turn.mk Role.user [ContentBlock.text "b"],
         Turn.mk Role.assistant [ContentBlock.text "done"]]
        emptyWorld := by
  simp only [toolRegistry, List.map, List.mem_cons, List.not_mem_nil, or_false,
    not_or] at h
  obtain ⟨h1, h2, h3⟩ := h
  have e1 : (("read_file", ToolKind.readF).fst == name) = false := by
    simp [beq_iff_eq]
    exact fun e => h1 e.symm
  have e2 : (("list_files", ToolKind.listF).fst == name) = false := by
    simp [beq_iff_eq]
    exact fun e => h2 e.symm
  have e3 : (("edit_file", ToolKind.editF).fst == name) = false := by
    simp [beq_iff_eq]
    exact fun e => h3 e.symm
  have hfind : findTool name = none := by
    simp [findTool, toolRegistry, List.find?, e1, e2, e3]
  constructor
  · simp [executeTool, hfind]
  · simp [run, consumeInput, c7oracle, processBlocks, executeTool, hfind]

/-- Claim C7 witness: `executeTool_unknown_tool` at the unregistered name
"frobnicate". -/
theorem executeTool_unknown_tool_witness :
    ("frobnicate" : String) ∉ toolRegistry.map Prod.fst ∧
    (executeTool emptyWorld "i9" "frobnicate" RawJson.malformed =
      Outcome.ok (ContentBlock.toolResult "i9" "tool not found" true, emptyWorld) ∧
    run (c7oracle "frobnicate") 10 emptyWorld [] ["a", "b"] true =
      RunResult.mk RunOutcome.finished
        [Turn.mk Role.user [ContentBlock.text "a"],
         Turn.mk Role.assistant
           [ContentBlock.toolUse "t1" "frobnicate" (RawJson.obj none none none)],
         Turn.mk Role.user [ContentBlock.toolResult "t1" "tool not found" true],
         Turn.mk Role.assistant [ContentBlock.text "done"],
         Turn.mk Role.user [ContentBlock.text "b"],
         Turn.mk Role.assistant [ContentBlock.text "done"]]
        emptyWorld) :=
  ⟨by decide, executeTool_unknown_tool "frobnicate" emptyWorld "i9" RawJson.malformed (by decide)⟩

/-- Claim C8: for every sequence of human inputs and every sequence of
model responses containing no tool invocations, the run consumes all
inputs and ends normally, the transcript has length exactly 2N for N
inputs, and it alternates one human turn (carrying the input line) and
one model turn per exchange — the loop returns to soliciting input after
every exchange. -/
theorem run_text_only_transcript (rs : List (List ContentBlock)) (inputs : List String)
    (w : World) (h : rs.all blocksNoToolUse = true) :
    (run (listOracle rs) (inputs.length + 1) w [] inputs true).outcome =
      RunOutcome.finished ∧
    (run (listOracle rs) (inputs.length + 1) w [] inputs true).conv.length =
      2 * inputs.length ∧
    alternates inputs (run (listOracle rs) (inputs.length + 1) w [] inputs true).conv := by
  have horacle : ∀ c, ∃ bs, listOracle rs c = Except.ok bs ∧ blocksNoToolUse bs = true :=
    fun c => ⟨nthResponse rs (c.length / 2), rfl, nthResponse_all h rfl _⟩
  obtain ⟨ext, heq, halt⟩ := run_text_only_general (listOracle rs) horacle inputs w []
  rw [heq]
  simp only [List.nil_append]
  exact ⟨trivial, alternates_length inputs ext halt, halt⟩

/-- Claim C8 witness: `run_text_only_transcript` for one text-only
response replayed over one human input. -/
theorem run_text_only_transcript_witness :
    ([[ContentBlock.text "hello"]].all blocksNoToolUse = true) ∧
    ((run (listOracle [[ContentBlock.text "hello"]]) (["hi"].length + 1) emptyWorld [] ["hi"]
        true).outcome = RunOutcome.finished ∧
    (run (listOracle [[ContentBlock.text "hello"]]) (["hi"].length + 1) emptyWorld [] ["hi"]
        true).conv.length = 2 * ["hi"].length ∧
    alternates ["hi"]
      (run (listOracle [[ContentBlock.text "hello"]]) (["hi"].length + 1) emptyWorld [] ["hi"]
        true).conv) :=
  ⟨by decide, run_text_only_transcript [[ContentBlock.text "hello"]] ["hi"] emptyWorld (by decide)⟩

/-- Claim C9: on a directory containing exactly one subdirectory `sub`
and one file `a.txt`, `list_files` returns a JSON array of exactly the
two entries "a.txt" and "sub/" (directories suffixed with "/", the root
entry "." excluded), and an absent or empty `path` argument defaults to
".". -/
theorem ListFiles_two_entries :
    ListFiles wC9 (RawJson.obj none none none) =
      Outcome.ok (Except.ok "[\"a.txt\",\"sub/\"]") ∧
    walkEntries "" wC9.tree = ["a.txt", "sub/"] ∧
    (walkEntries "" wC9.tree).length = 2 ∧
    "a.txt" ∈ walkEntries "" wC9.tree ∧
    "sub/" ∈ walkEntries "" wC9.tree ∧
    "." ∉ walkEntries "" wC9.tree ∧
    ListFiles wC9 (RawJson.obj (some "") none none) =
      ListFiles wC9 (RawJson.obj none none none) ∧
    ListFiles wC9 (RawJson.obj (some ".") none none) =
      ListFiles wC9 (RawJson.obj none none none) := by
  decide

/-- Claim C10: `list_files` is recursive — for every working-directory
tree containing a subdirectory `n` and every entry `e` of `n`, the walk
of the root also records the nested entry, as the slash-joined path
`n/<name>` (with a trailing "/" when the entry is a directory), and the
tool output is the marshalled walk of the whole tree. -/
theorem ListFiles_recursive (es : EntryList) (n : String) (cs : EntryList) (e : Entry)
    (w : World) (hn : n ≠ "") (h1 : Entry.dir n cs ∈ toListEL es) (h2 : e ∈ toListEL cs)
    (hw : w.tree = es) :
    nestedPath n e ∈ walkEntries "" es ∧
    ListFiles w (RawJson.obj none none none) =
      Outcome.ok (Except.ok (marshal (walkEntries "" es))) := by
  constructor
  · have hhead : entryHeadPath n e ∈ walkEntries n cs := mem_walkEntries_head n e cs h2
    have hrel : relJoin "" n = n := by simp [relJoin]
    have hsub : nestedPath n e ∈ walkEntries (relJoin "" n) cs := by
      rw [hrel, ← entryHeadPath_eq_nestedPath n hn e]
      exact hhead
    exact mem_walkEntries_subtree "" n cs (nestedPath n e) es h1 hsub
  · simp [ListFiles, resolveDir, hw]

/-- Claim C10 witness: `ListFiles_recursive` on the tree of `wC10`,
with the full walk evaluated. -/
theorem ListFiles_recursive_witness :
    ("sub" : String) ≠ "" ∧
    Entry.dir "sub" (elOf [Entry.file "f.txt" ""]) ∈ toListEL wC10.tree ∧
    Entry.file "f.txt" "" ∈ toListEL (elOf [Entry.file "f.txt" ""]) ∧
    (nestedPath "sub" (Entry.file "f.txt" "") ∈ walkEntries "" wC10.tree ∧
      ListFiles wC10 (RawJson.obj none none none) =
        Outcome.ok (Except.ok (marshal (walkEntries "" wC10.tree)))) ∧
    nestedPath "sub" (Entry.file "f.txt" "") = "sub/f.txt" ∧
    walkEntries "" wC10.tree = ["sub/", "sub/f.txt"] ∧
    marshal (walkEntries "" wC10.tree) = "[\"sub/\",\"sub/f.txt\"]" :=
  ⟨by decide, by simp [wC10, toListEL, elOf], by simp [toListEL, elOf],
    ListFiles_recursive wC10.tree "sub" (elOf [Entry.file "f.txt" ""])
      (Entry.file "f.txt" "") wC10 (by decide) (by simp [wC10, toListEL, elOf])
      (by simp [toListEL, elOf]) rfl,
    by decide, by decide, by decide⟩
